import Mathlib

/-!
# LiePP: the scaled-rotation group `SOT3`

A shallow embedding of `include/liepp/SOT3.h`.  The class is a template over a
scalar type `_Scalar` and is layered on the rotation class `SO3<_Scalar>` of
`SO3.h`.  The scalar type is the type parameter `S`; the rotation class is the
type parameter `G` together with a record `SO3Ops S G` of the member functions
that `SOT3.h` calls.  The scalar functions `std::exp` and `std::log` are passed
as function arguments, so that every definition below is computable.

The definitions ask of the scalar type only the operations they use, so they
apply to the real numbers and to `F64`, the IEEE 754 binary64 arithmetic of
`SOT3d = SOT3<double>`.  The laws of the group are proved over the reals; where
a law does not survive rounding, underflow or overflow, a theorem over `F64`
evaluates the code at a `double` input that shows it.

Fixed-size Eigen containers are functions on `Fin n`:
`Vector3S = Fin 3 → S`, `VectorAlgS = Fin 4 → S`, and the matrix types are
Mathlib matrices indexed by `Fin 3` and `Fin 4`.
-/

namespace LiePP

/-! ## Eigen containers -/

/-- `Eigen::Matrix<_Scalar, 3, 1>`. -/
abbrev Vector3S (S : Type) := Fin 3 → S

/-- `Eigen::Matrix<_Scalar, 4, 1>`. -/
abbrev VectorAlgS (S : Type) := Fin 4 → S

/-- `Eigen::Matrix<_Scalar, 3, 3>`. -/
abbrev Matrix3S (S : Type) := Matrix (Fin 3) (Fin 3) S

/-- `Eigen::Matrix<_Scalar, 4, 4>`. -/
abbrev MatrixAlgS (S : Type) := Matrix (Fin 4) (Fin 4) S

section Containers

variable {S : Type}

/-- Read access `u.segment<3>(0)`: entries 0, 1, 2 of a 4-vector. -/
def segment3 (u : VectorAlgS S) : Vector3S S :=
  fun i => u (Fin.castLE (by decide) i)

/-- Read access `w.block<3, 1>(0, 0)` on a 4-vector: entries 0, 1, 2. -/
def block31 (w : VectorAlgS S) : Vector3S S :=
  fun i => w (Fin.castLE (by decide) i)

/-- Read access `U.block<3, 3>(0, 0)`: the top-left 3x3 block of a 4x4 matrix. -/
def block33 (U : MatrixAlgS S) : Matrix3S S :=
  Matrix.of fun i j => U (Fin.castLE (by decide) i) (Fin.castLE (by decide) j)

/-- Assignment `u.segment<3>(0) = w`: entries 0, 1, 2 are overwritten, entry 3 is kept. -/
def setSegment3 (u : VectorAlgS S) (w : Vector3S S) : VectorAlgS S :=
  fun i => if h : i.val < 3 then w ⟨i.val, h⟩ else u i

/-- Assignment `u.block<3, 1>(0, 0) = w` on a 4-vector. -/
def setBlock31 (u : VectorAlgS S) (w : Vector3S S) : VectorAlgS S :=
  fun i => if h : i.val < 3 then w ⟨i.val, h⟩ else u i

/-- Assignment `u(k) = x` on a 4-vector. -/
def setCoeff4 (u : VectorAlgS S) (k : Fin 4) (x : S) : VectorAlgS S :=
  fun i => if i = k then x else u i

/-- Assignment `U.block<3, 3>(0, 0) = B`: the top-left block is overwritten, the
last row and the last column are kept. -/
def setBlock33 (U : MatrixAlgS S) (B : Matrix3S S) : MatrixAlgS S :=
  Matrix.of fun i j =>
    if h : i.val < 3 ∧ j.val < 3 then B ⟨i.val, h.1⟩ ⟨j.val, h.2⟩ else U i j

/-- Assignment `U(r, c) = x` on a 4x4 matrix. -/
def setCoeff44 (U : MatrixAlgS S) (r c : Fin 4) (x : S) : MatrixAlgS S :=
  Matrix.of fun i j => if i = r ∧ j = c then x else U i j

end Containers

/-! ## The rotation class used by `SOT3` -/

/-- The rotation class `SO3<_Scalar>` of `SO3.h`, which `SOT3.h` includes and
which lies outside this development: it is taken as a parameter.  Each field is
one member of `SO3S` that `SOT3.h` calls; nothing is assumed about them here,
and every property a theorem needs is a hypothesis of that theorem.

* `identity`: the rotation held after `R.setIdentity()`;
* `mul R₁ R₂`: `R₁ * R₂`;
* `inverse R`: the rotation returned by `R.inverse()`;
* `invert R`: the rotation held after the in-place call `R.invert()`;
* `act R p`: `R * p` for a point `p`;
* `applyInverse R p`: `R.applyInverse(p)`;
* `exp`, `log`, `skew`, `vex`: the static members of the same names;
* `asMatrix R`: `R.asMatrix()`;
* `fromMatrix M`: the rotation held after `R.fromMatrix(M)`. -/
structure SO3Ops (S G : Type) where
  identity : G
  mul : G → G → G
  inverse : G → G
  invert : G → G
  act : G → Vector3S S → Vector3S S
  applyInverse : G → Vector3S S → Vector3S S
  exp : Vector3S S → G
  log : G → Vector3S S
  skew : Vector3S S → Matrix3S S
  vex : Matrix3S S → Vector3S S
  asMatrix : G → Matrix3S S
  fromMatrix : Matrix3S S → G

/-! ## The class `SOT3` -/

/-- The data members of `SOT3`: `SO3S R; _Scalar a;`. -/
@[ext]
structure SOT3 (S G : Type) where
  R : G
  a : S

namespace SOT3

section Algebra

variable {S G : Type} [Zero S]

/-- `static MatrixAlgS wedge(const VectorAlgS& u)`. -/
def wedge (ops : SO3Ops S G) (u : VectorAlgS S) : MatrixAlgS S :=
  let U : MatrixAlgS S := 0
  let U := setBlock33 U (ops.skew (segment3 u))
  let U := setCoeff44 U 3 3 (u 3)
  U

/-- `static VectorAlgS vee(const MatrixAlgS& U)`.  The local `u` is declared
without an initialiser; all four entries are assigned before it is returned, and
the placeholder `0` stands for its initial content. -/
def vee (ops : SO3Ops S G) (U : MatrixAlgS S) : VectorAlgS S :=
  let u : VectorAlgS S := 0
  let u := setSegment3 u (ops.vex (block33 U))
  let u := setCoeff4 u 3 (U 3 3)
  u

end Algebra

section Group

variable {S G : Type}

/-- `SOT3() = default`: the rotation is default-constructed and the scale is
left without an initialiser; the placeholder `0` stands for its content. -/
def fresh [Zero S] [Inhabited G] : SOT3 S G :=
  { R := default, a := 0 }

/-- `static SOT3 exp(const VectorAlgS& w)`; `sexp` is `std::exp`. -/
def exp [Zero S] [Inhabited G] (ops : SO3Ops S G) (sexp : S → S) (w : VectorAlgS S) :
    SOT3 S G :=
  let result : SOT3 S G := fresh
  let result := { result with R := ops.exp (block31 w) }
  let result := { result with a := sexp (w 3) }
  result

/-- `static VectorAlgS log(const SOT3& T)`; `slog` is `std::log`.  The local
`result` is declared without an initialiser and fully assigned. -/
def log [Zero S] (ops : SO3Ops S G) (slog : S → S) (T : SOT3 S G) : VectorAlgS S :=
  let result : VectorAlgS S := 0
  let result := setBlock31 result (ops.log T.R)
  let result := setCoeff4 result 3 (slog T.a)
  result

/-- `SOT3(const SO3S& R, const _Scalar& a)`. -/
def construct (R : G) (a : S) : SOT3 S G :=
  { R := R, a := a }

/-- The quotient `rand() / RAND_MAX` in `static SOT3 Random()`, whose body is
`SOT3(SO3S::Random(), exp(_Scalar(rand() / RAND_MAX)))`: both operands have type
`int`, so the division is the integer one and is carried out before the
conversion to `_Scalar`.  `r` is the value returned by `rand()`, which lies in
`0 .. RAND_MAX`, so natural numbers represent both operands.

The rest of `Random()` has no embedding.  Inside the class the unqualified name
`exp` denotes the static member `exp(const VectorAlgS&)` declared above it, not
the scalar exponential; the member cannot take a `_Scalar`, and its result, an
`SOT3`, is not a `_Scalar` for the two-argument constructor.  The corresponding
term `construct Rrand (exp ops sexp x)` with `x : S` is ill-typed in the same
way. -/
def randQuotient (r RAND_MAX : ℕ) : ℕ :=
  r / RAND_MAX

/-- `SOT3(const MatrixAlgS& mat)`. -/
def ofMatrix (ops : SO3Ops S G) (mat : MatrixAlgS S) : SOT3 S G :=
  { R := ops.fromMatrix (block33 mat), a := mat 3 3 }

/-- `void setIdentity()`: the state of the object after the call. -/
def setIdentity [One S] (ops : SO3Ops S G) (self : SOT3 S G) : SOT3 S G :=
  let self := { self with R := ops.identity }
  let self := { self with a := 1 }
  self

/-- `static SOT3 Identity()`. -/
def Identity [Zero S] [One S] [Inhabited G] (ops : SO3Ops S G) : SOT3 S G :=
  let Q : SOT3 S G := fresh
  let Q := setIdentity ops Q
  Q

/-- `Vector3S operator*(const Vector3S& point) const`: `a * (R * point)`. -/
def act [Mul S] (ops : SO3Ops S G) (self : SOT3 S G) (point : Vector3S S) : Vector3S S :=
  self.a • ops.act self.R point

/-- `SOT3 operator*(const SOT3& other) const`. -/
def mul [Mul S] (ops : SO3Ops S G) (self other : SOT3 S G) : SOT3 S G :=
  construct (ops.mul self.R other.R) (self.a * other.a)

/-- `Vector3S applyInverse(const Vector3S& p) const`: `1.0 / a * R.applyInverse(p)`. -/
def applyInverse [One S] [Mul S] [Div S] (ops : SO3Ops S G) (self : SOT3 S G)
    (p : Vector3S S) : Vector3S S :=
  (1 / self.a) • ops.applyInverse self.R p

/-- `void invert()`: the state of the object after the call. -/
def invert [One S] [Div S] (ops : SO3Ops S G) (self : SOT3 S G) : SOT3 S G :=
  let self := { self with R := ops.invert self.R }
  let self := { self with a := 1 / self.a }
  self

/-- `SOT3 inverse() const`. -/
def inverse [One S] [Div S] (ops : SO3Ops S G) (self : SOT3 S G) : SOT3 S G :=
  construct (ops.inverse self.R) (1 / self.a)

/-- `MatrixAlgS asMatrix() const`. -/
def asMatrix [Zero S] [One S] (ops : SO3Ops S G) (self : SOT3 S G) : MatrixAlgS S :=
  let result : MatrixAlgS S := 1
  let result := setBlock33 result (ops.asMatrix self.R)
  let result := setCoeff44 result 3 3 self.a
  result

end Group

end SOT3

/-- The elements obtained from elements of positive scale by the operations of
the class that build or change an element without taking raw data: `Identity()`,
`exp`, the product, `inverse()`, `invert()` and `setIdentity()`. -/
inductive Reachable {G : Type} [Inhabited G] (ops : SO3Ops ℝ G) : SOT3 ℝ G → Prop
  | start (T : SOT3 ℝ G) : 0 < T.a → Reachable ops T
  | Identity : Reachable ops (SOT3.Identity ops)
  | exp (v : VectorAlgS ℝ) : Reachable ops (SOT3.exp ops Real.exp v)
  | mul (A B : SOT3 ℝ G) : Reachable ops A → Reachable ops B → Reachable ops (SOT3.mul ops A B)
  | inverse (A : SOT3 ℝ G) : Reachable ops A → Reachable ops (SOT3.inverse ops A)
  | invert (A : SOT3 ℝ G) : Reachable ops A → Reachable ops (SOT3.invert ops A)
  | setIdentity (A : SOT3 ℝ G) : Reachable ops A → Reachable ops (SOT3.setIdentity ops A)

/-! ## A concrete rotation class

Rotations stored as 3x3 matrices, with the matrix product as composition, the
transpose as inverse and the matrix-vector product as point action.  It is used
to instantiate the theorems below at concrete elements. -/

section Sample

/-- The skew-symmetric matrix of a 3-vector. -/
def skewMatrix {S : Type} [Zero S] [Neg S] (w : Vector3S S) : Matrix3S S :=
  !![0, -w 2, w 1; w 2, 0, -w 0; -w 1, w 0, 0]

/-- The 3-vector read off the strictly lower part of a skew-symmetric matrix. -/
def vexMatrix {S : Type} (M : Matrix3S S) : Vector3S S :=
  ![M 2 1, M 0 2, M 1 0]

variable {S : Type} [Field S]

/-- Rotations as 3x3 matrices.  The maps `exp` and `log` are the first-order
ones, `1 + skew w` and the `vex` of the matrix, which agree with the rotation
exponential and logarithm at `w = 0` and at the identity. -/
def matrixSO3 : SO3Ops S (Matrix3S S) where
  identity := 1
  mul := fun A B => A * B
  inverse := fun A => A.transpose
  invert := fun A => A.transpose
  act := fun A p => A.mulVec p
  applyInverse := fun A p => A.transpose.mulVec p
  exp := fun w => 1 + skewMatrix w
  log := fun A => vexMatrix A
  skew := skewMatrix
  vex := vexMatrix
  asMatrix := fun A => A
  fromMatrix := fun M => M

/-- The quarter turn about the third axis. -/
def quarterTurnZ : Matrix3S S :=
  !![0, -1, 0; 1, 0, 0; 0, 0, 1]

/-- The quarter turn about the first axis. -/
def quarterTurnX : Matrix3S S :=
  !![1, 0, 0; 0, 0, -1; 0, 1, 0]

/-- The sample element: the quarter turn about the third axis with scale 2. -/
def quarterTurnTwice : SOT3 S (Matrix3S S) :=
  SOT3.construct quarterTurnZ 2

/-- The sample element with the identity rotation and scale 2. -/
def pureScaleTwo : SOT3 S (Matrix3S S) :=
  SOT3.construct 1 2

end Sample

/-! ## The arithmetic of `double`

`SOT3d` is `SOT3<double>`.  Its scalars are IEEE 754 binary64 values and every
arithmetic operation rounds its exact result to the nearest value, ties to the
even significand.  A finite value is a sign and a rational magnitude, which
keeps the two zeros apart; the operations are computable.  Rounding is written
once for every ordered field with a floor, so that it serves the rational
results of the arithmetic and the real results of `std::exp` and `std::log`,
which are taken to be correctly rounded. -/

/-- A binary64 value: a finite value `(-1)^neg * mag`, an infinity, or a NaN. -/
inductive F64 where
  | finite (neg : Bool) (mag : ℚ)
  | inf (neg : Bool)
  | nan
deriving DecidableEq

namespace F64

/-- The number of times `n` can be halved before it drops below 2, counted with
at most `fuel` halvings. -/
def log2Fuel : ℕ → ℕ → ℕ
  | 0, _ => 0
  | fuel + 1, n => if 2 ≤ n then log2Fuel fuel (n / 2) + 1 else 0

/-- The greatest `k` with `2 ^ k ≤ n`, for `n ≥ 1`. -/
def flog2 (n : ℕ) : ℕ :=
  log2Fuel n n

/-- The least `k` with `n ≤ 2 ^ k`. -/
def clog2 (n : ℕ) : ℕ :=
  if n ≤ 1 then 0 else flog2 (n - 1) + 1

/-- The binary exponent of a positive `x`: the integer `e` with
`2 ^ e ≤ x < 2 ^ (e + 1)`. -/
def ilog2 {K : Type} [LinearOrderedField K] [FloorRing K] (x : K) : ℤ :=
  if 1 ≤ x then (flog2 ⌊x⌋₊ : ℤ) else -(clog2 ⌈x⁻¹⌉₊ : ℤ)

/-- The natural number nearest to `s ≥ 0`, a tie going to the even one. -/
def roundHalfEven {K : Type} [LinearOrderedField K] [FloorRing K] (s : K) : ℕ :=
  let f := ⌊s⌋₊
  let r := s - f
  if r < 1 / 2 then f else if 1 / 2 < r then f + 1 else if f % 2 = 0 then f else f + 1

/-- The binary64 magnitude nearest to `x ≥ 0`, or `none` on overflow.  The unit
in the last place is `2 ^ u` with `u` the binary exponent less 52, and at least
`-1074` in the subnormal range; the significand is rounded to that unit; a
result of `2 ^ 1024` or more overflows. -/
def roundMag {K : Type} [LinearOrderedField K] [FloorRing K] (x : K) : Option ℚ :=
  if x = 0 then some 0 else
  let u : ℤ := max (ilog2 x - 52) (-1074)
  let m := roundHalfEven (x / 2 ^ u)
  let r : ℚ := (m : ℚ) * 2 ^ u
  if r < 2 ^ (1024 : ℕ) then some r else none

/-- The value of sign `neg` nearest to the magnitude `x ≥ 0`; overflow gives the
infinity of that sign. -/
def round {K : Type} [LinearOrderedField K] [FloorRing K] (neg : Bool) (x : K) : F64 :=
  match roundMag x with
  | some r => finite neg r
  | none => inf neg

/-- The binary64 value nearest to `x`; at a rational this is the value of a
decimal literal. -/
def rnd {K : Type} [LinearOrderedField K] [FloorRing K] (x : K) : F64 :=
  round (decide (x < 0)) |x|

/-- The number a finite value stands for. -/
def signed {K : Type} [LinearOrderedField K] (neg : Bool) (mag : ℚ) : K :=
  if neg then -(mag : K) else (mag : K)

/-- The product `x * y` of two doubles. -/
def mul : F64 → F64 → F64
  | nan, _ => nan
  | _, nan => nan
  | inf s, inf t => inf (xor s t)
  | inf s, finite t n => if n = 0 then nan else inf (xor s t)
  | finite s m, inf t => if m = 0 then nan else inf (xor s t)
  | finite s m, finite t n => round (xor s t) (m * n)

/-- The sum `x + y` of two doubles; an exact zero sum is `-0` only when both
operands are negative. -/
def add : F64 → F64 → F64
  | nan, _ => nan
  | _, nan => nan
  | inf s, inf t => if s = t then inf s else nan
  | inf s, finite _ _ => inf s
  | finite _ _, inf t => inf t
  | finite s m, finite t n =>
    let x : ℚ := signed s m + signed t n
    if x = 0 then finite (s && t) 0 else rnd x

/-- The quotient `x / y` of two doubles. -/
def div : F64 → F64 → F64
  | nan, _ => nan
  | _, nan => nan
  | inf _, inf _ => nan
  | inf s, finite t _ => inf (xor s t)
  | finite s _, inf t => finite (xor s t) 0
  | finite s m, finite t n =>
    if n = 0 then (if m = 0 then nan else inf (xor s t)) else round (xor s t) (m / n)

/-- The negation `-x` of a double. -/
def neg : F64 → F64
  | nan => nan
  | inf s => inf (!s)
  | finite s m => finite (!s) m

/-- The comparison `x < y` of two doubles; it is false when either is a NaN. -/
def blt : F64 → F64 → Bool
  | nan, _ => false
  | _, nan => false
  | inf s, inf t => s && !t
  | inf s, finite _ _ => s
  | finite _ _, inf t => !t
  | finite s m, finite t n => decide ((signed s m : ℚ) < signed t n)

/-- The function `std::exp` on doubles, for the real exponential `rexp`:
`exp(-inf)` is `+0`, `exp(+inf)` is `+inf`, and a finite argument gives the
double nearest to the exponential of its value. -/
def exp {K : Type} [LinearOrderedField K] [FloorRing K] (rexp : K → K) : F64 → F64
  | nan => nan
  | inf s => if s then finite false 0 else inf false
  | finite s m => rnd (rexp (signed s m))

/-- The function `std::log` on doubles, for the real logarithm `rlog`: the
logarithm of a zero is `-inf`, of a negative value a NaN, of `+inf` is `+inf`,
and a positive finite argument gives the double nearest to the logarithm of its
value. -/
def log {K : Type} [LinearOrderedField K] [FloorRing K] (rlog : K → K) : F64 → F64
  | nan => nan
  | inf s => if s then nan else inf false
  | finite s m => if m = 0 then inf true else if s then nan else rnd (rlog (m : K))

instance : Zero F64 := ⟨finite false 0⟩

instance : One F64 := ⟨finite false 1⟩

instance : Inhabited F64 := ⟨finite false 0⟩

instance : Mul F64 := ⟨mul⟩

instance : Add F64 := ⟨add⟩

instance : Div F64 := ⟨div⟩

instance : Neg F64 := ⟨neg⟩

instance : LT F64 := ⟨fun a b => blt a b = true⟩

instance (a b : F64) : Decidable (a < b) :=
  inferInstanceAs (Decidable (blt a b = true))

end F64

/-! ## A rotation class over any scalar type

Rotations stored as 3x3 matrices whose products are evaluated coefficient by
coefficient, so that no law of the scalar arithmetic is needed.  Over `F64` it
is the rotation class of the elements at which the claims are evaluated in
`double`. -/

section Coefficientwise

/-- The product of a 3x3 matrix and a 3-vector, one coefficient at a time, the
three products of a row summed from left to right. -/
def mulVec3 {S : Type} [Add S] [Mul S] (M : Matrix3S S) (p : Vector3S S) : Vector3S S :=
  fun i => M i 0 * p 0 + M i 1 * p 1 + M i 2 * p 2

/-- The product of two 3x3 matrices, one coefficient at a time. -/
def mulMat3 {S : Type} [Add S] [Mul S] (A B : Matrix3S S) : Matrix3S S :=
  Matrix.of fun i j => A i 0 * B 0 j + A i 1 * B 1 j + A i 2 * B 2 j

/-- Rotations as 3x3 matrices over a scalar type with `0`, `1`, `+`, `*` and
`-`; the point action is the product of the matrix and the point, and `exp`
and `log` are the first-order maps of `matrixSO3`. -/
def coeffSO3 {S : Type} [Zero S] [One S] [Add S] [Mul S] [Neg S] : SO3Ops S (Matrix3S S) where
  identity := 1
  mul := mulMat3
  inverse := fun A => A.transpose
  invert := fun A => A.transpose
  act := mulVec3
  applyInverse := fun A p => mulVec3 A.transpose p
  exp := fun w => 1 + skewMatrix w
  log := fun A => vexMatrix A
  skew := skewMatrix
  vex := vexMatrix
  asMatrix := fun A => A
  fromMatrix := fun M => M

/-- The element of `SOT3d` with the identity rotation and scale `2 ^ -600`. -/
def tinyScale : SOT3 F64 (Matrix3S F64) :=
  SOT3.construct 1 (F64.rnd ((2 : ℚ) ^ (-600 : ℤ)))

/-- The algebra vector `(0, 0, 0, -1000)` of doubles. -/
def deepLogScale : VectorAlgS F64 :=
  ![0, 0, 0, F64.finite true 1000]

end Coefficientwise

/-! ## Container lemmas -/

section ContainerLemmas

variable {S : Type}

theorem block31_eq_segment3 (u : VectorAlgS S) : block31 u = segment3 u := rfl

theorem setBlock31_eq_setSegment3 (u : VectorAlgS S) (w : Vector3S S) :
    setBlock31 u w = setSegment3 u w := rfl

theorem setCoeff4_self (u : VectorAlgS S) (k : Fin 4) (x : S) : setCoeff4 u k x k = x := by
  simp [setCoeff4]

theorem segment3_setCoeff4_setSegment3 (u : VectorAlgS S) (w : Vector3S S) (x : S) :
    segment3 (setCoeff4 (setSegment3 u w) 3 x) = w := by
  funext i
  fin_cases i <;> rfl

theorem setCoeff4_setSegment3_segment3 (u v : VectorAlgS S) :
    setCoeff4 (setSegment3 u (segment3 v)) 3 (v 3) = v := by
  funext i
  fin_cases i <;> rfl

theorem block33_setCoeff44_setBlock33 (U : MatrixAlgS S) (B : Matrix3S S) (x : S) :
    block33 (setCoeff44 (setBlock33 U B) 3 3 x) = B := by
  ext i j
  fin_cases i <;> fin_cases j <;> rfl

theorem setCoeff44_self (U : MatrixAlgS S) (r c : Fin 4) (x : S) :
    setCoeff44 U r c x r c = x := by
  simp [setCoeff44]

end ContainerLemmas

/-! ## Lemmas on the concrete rotation class -/

section SampleLemmas

variable {S : Type} [Field S]

theorem vexMatrix_skewMatrix (w : Vector3S S) : vexMatrix (skewMatrix w) = w := by
  funext i
  fin_cases i <;> simp [vexMatrix, skewMatrix]

theorem vexMatrix_one_add_skewMatrix (w : Vector3S S) :
    vexMatrix (1 + skewMatrix w) = w := by
  funext i
  fin_cases i <;> simp [vexMatrix, skewMatrix, Matrix.add_apply, Matrix.one_apply]

theorem skewMatrix_vexMatrix_one : skewMatrix (vexMatrix (1 : Matrix3S S)) = 0 := by
  ext i j
  fin_cases i <;> fin_cases j <;>
    simp [vexMatrix, skewMatrix, Matrix.one_apply, Matrix.vecHead, Matrix.vecTail]

theorem quarterTurnZ_mul_transpose :
    (quarterTurnZ : Matrix3S S) * quarterTurnZ.transpose = 1 := by
  ext i j
  fin_cases i <;> fin_cases j <;>
    simp [quarterTurnZ, Matrix.mul_apply, Fin.sum_univ_three, Matrix.one_apply,
      Matrix.transpose_apply, Matrix.vecHead, Matrix.vecTail]

theorem quarterTurnZ_transpose_mul :
    (quarterTurnZ : Matrix3S S).transpose * quarterTurnZ = 1 := by
  ext i j
  fin_cases i <;> fin_cases j <;>
    simp [quarterTurnZ, Matrix.mul_apply, Fin.sum_univ_three, Matrix.one_apply,
      Matrix.transpose_apply, Matrix.vecHead, Matrix.vecTail]

end SampleLemmas

/-! ## Lemmas on the arithmetic of `double` -/

section RoundingLemmas

theorem mulVec3_eq_mulVec {S : Type} [CommSemiring S] (M : Matrix3S S) (p : Vector3S S) :
    mulVec3 M p = M.mulVec p := by
  funext i
  simp [mulVec3, Matrix.mulVec, Matrix.dotProduct, Fin.sum_univ_three]

theorem F64.log2Fuel_eq : ∀ fuel n : ℕ, n ≤ fuel → F64.log2Fuel fuel n = Nat.log2 n := by
  intro fuel
  induction fuel with
  | zero =>
    intro n hn
    have h0 : n = 0 := Nat.le_zero.mp hn
    subst h0
    rw [Nat.log2]
    simp [F64.log2Fuel]
  | succ k ih =>
    intro n hn
    rw [Nat.log2]
    by_cases h2 : 2 ≤ n
    · have hk : n / 2 ≤ k := by omega
      simp [F64.log2Fuel, h2, ih _ hk]
    · simp [F64.log2Fuel, h2]

theorem F64.flog2_eq (n : ℕ) : F64.flog2 n = Nat.log2 n :=
  F64.log2Fuel_eq n n (le_refl n)

theorem F64.clog2_ge_of_lt {n k : ℕ} (h : 2 ^ k < n) : k + 1 ≤ F64.clog2 n := by
  have h1 : 1 ≤ 2 ^ k := Nat.one_le_two_pow
  have hn : ¬ n ≤ 1 := by omega
  have hne : n - 1 ≠ 0 := by omega
  have hle : 2 ^ k ≤ n - 1 := by omega
  have hlog := (Nat.le_log2 hne).mpr hle
  simp only [F64.clog2, hn, if_false, F64.flog2_eq]
  omega

theorem F64.ilog2_le_of_lt {K : Type} [LinearOrderedField K] [FloorRing K] (x : K)
    (hx0 : 0 < x) (hx : x < 2 ^ (-1075 : ℤ)) : F64.ilog2 x ≤ -1076 := by
  have h2 : (2 : K) ^ (-1075 : ℤ) < 1 := by
    rw [zpow_neg]
    exact inv_lt_one_of_one_lt₀ (one_lt_zpow₀ one_lt_two (by norm_num))
  have hlt1 : ¬ 1 ≤ x := not_le.mpr (lt_trans hx h2)
  have hinv : (2 : K) ^ (1075 : ℕ) < x⁻¹ := by
    rw [lt_inv_comm₀ (by positivity) hx0]
    calc x < 2 ^ (-1075 : ℤ) := hx
      _ = ((2 : K) ^ (1075 : ℕ))⁻¹ := by rw [zpow_neg]; exact congrArg _ (zpow_natCast 2 1075)
  have hceil : 2 ^ 1075 < ⌈x⁻¹⌉₊ := by
    have hcast : ((2 ^ 1075 : ℕ) : K) < (⌈x⁻¹⌉₊ : K) := by
      rw [Nat.cast_pow, Nat.cast_ofNat]
      exact lt_of_lt_of_le hinv (Nat.le_ceil _)
    exact Nat.cast_lt.mp hcast
  have hclog := F64.clog2_ge_of_lt hceil
  simp only [F64.ilog2, hlt1, if_false]
  omega

theorem F64.roundMag_eq_zero_of_lt {K : Type} [LinearOrderedField K] [FloorRing K] (x : K)
    (hx0 : 0 < x) (hx : x < 2 ^ (-1075 : ℤ)) : F64.roundMag x = some 0 := by
  have hu : max (F64.ilog2 x - 52) (-1074) = (-1074 : ℤ) :=
    max_eq_right (by have hl := F64.ilog2_le_of_lt x hx0 hx; omega)
  have hs : x / 2 ^ (-1074 : ℤ) < 1 / 2 := by
    rw [div_lt_iff₀ (by positivity)]
    calc x < 2 ^ (-1075 : ℤ) := hx
      _ = 1 / 2 * 2 ^ (-1074 : ℤ) := by
        rw [show (-1075 : ℤ) = -1074 - 1 by norm_num, zpow_sub₀ two_ne_zero, zpow_one]
        ring
  have hfloor : ⌊x / (2 : K) ^ (-1074 : ℤ)⌋₊ = 0 :=
    Nat.floor_eq_zero.mpr (lt_trans hs (by norm_num))
  have hm : F64.roundHalfEven (x / (2 : K) ^ (-1074 : ℤ)) = 0 := by
    simp only [F64.roundHalfEven, hfloor, Nat.cast_zero, sub_zero, hs, if_true]
  simp only [F64.roundMag, ne_of_gt hx0, if_false, hu, hm, Nat.cast_zero, zero_mul]
  norm_num

theorem F64.rnd_decimal :
    F64.rnd (1 / 10 : ℚ) = F64.finite false (3602879701896397 / 36028797018963968) ∧
      F64.rnd (1 / 10 : ℚ) + F64.rnd (1 / 5 : ℚ)
        = F64.finite false (1351079888211149 / 4503599627370496) ∧
      F64.rnd (3 / 10 : ℚ) = F64.finite false (5404319552844595 / 18014398509481984) := by
  refine ⟨by decide!, by decide!, by decide!⟩

theorem F64.special_values :
    (1 : F64) / 0 = F64.inf false ∧ (0 : F64) * F64.inf false = F64.nan ∧
      F64.inf false + F64.inf true = F64.nan ∧
      F64.rnd ((2 : ℚ) ^ 1024 - 2 ^ 970) = F64.inf false ∧
      F64.rnd ((3 : ℚ) / 2 ^ 1075) = F64.finite false (1 / 2 ^ 1073) := by
  refine ⟨by decide!, by decide!, by decide!, by decide!, by decide!⟩

theorem exp_neg_thousand_lt : Real.exp (-1000) < 2 ^ (-1075 : ℤ) := by
  have h1 : (2.7 : ℝ) < Real.exp 1 := lt_trans (by norm_num) Real.exp_one_gt_d9
  have h4 : (2 : ℝ) ^ 5 < Real.exp 1 ^ 4 := by
    calc (2 : ℝ) ^ 5 < 2.7 ^ 4 := by norm_num
      _ < Real.exp 1 ^ 4 := pow_lt_pow_left₀ h1 (by norm_num) (by norm_num)
  have h1000 : (2 : ℝ) ^ 1250 < Real.exp 1000 := by
    have hexp : Real.exp 1000 = (Real.exp 1 ^ 4) ^ 250 := by
      rw [← pow_mul, ← Real.exp_nat_mul]
      norm_num
    rw [hexp, show (2 : ℝ) ^ 1250 = (2 ^ 5) ^ 250 by rw [← pow_mul]]
    exact pow_lt_pow_left₀ h4 (by positivity) (by norm_num)
  rw [Real.exp_neg, zpow_neg]
  apply inv_strictAnti₀ (by positivity)
  calc (2 : ℝ) ^ (1075 : ℤ) = 2 ^ (1075 : ℕ) := zpow_natCast (2 : ℝ) 1075
    _ ≤ 2 ^ 1250 := pow_le_pow_right₀ (by norm_num) (by norm_num)
    _ < Real.exp 1000 := h1000

theorem F64.exp_neg_thousand :
    F64.exp Real.exp (F64.finite true 1000) = F64.finite false 0 := by
  have hpos : 0 < Real.exp (-1000) := Real.exp_pos _
  have hsig : (F64.signed true 1000 : ℝ) = -1000 := by
    simp [F64.signed]
  show F64.rnd (Real.exp (F64.signed true 1000)) = F64.finite false 0
  rw [hsig]
  simp only [F64.rnd, F64.round, not_lt.mpr hpos.le, decide_False, abs_of_pos hpos,
    F64.roundMag_eq_zero_of_lt _ hpos exp_neg_thousand_lt]

end RoundingLemmas

/-! ## Group laws -/

/-- C1 (identity laws): over the reals, if the rotation identity is a left and a
right unit for the rotation of `T`, then `Identity() * T` and `T * Identity()`
both equal `T`, rotation and scale alike. -/
theorem identity_laws {G : Type} [Inhabited G] (ops : SO3Ops ℝ G) (T : SOT3 ℝ G)
    (hleft : ops.mul ops.identity T.R = T.R)
    (hright : ops.mul T.R ops.identity = T.R) :
    SOT3.mul ops (SOT3.Identity ops) T = T ∧ SOT3.mul ops T (SOT3.Identity ops) = T := by
  constructor
  · ext
    · exact hleft
    · exact one_mul T.a
  · ext
    · exact hright
    · exact mul_one T.a

theorem identity_laws_witness :
    SOT3.mul (matrixSO3 : SO3Ops ℝ (Matrix3S ℝ)) (SOT3.Identity matrixSO3) quarterTurnTwice
        = quarterTurnTwice ∧
      SOT3.mul (matrixSO3 : SO3Ops ℝ (Matrix3S ℝ)) quarterTurnTwice (SOT3.Identity matrixSO3)
        = quarterTurnTwice :=
  identity_laws matrixSO3 quarterTurnTwice
    (one_mul (quarterTurnZ : Matrix3S ℝ)) (mul_one (quarterTurnZ : Matrix3S ℝ))

/-- C2 (right inverse): over the reals, for `T` of positive scale whose rotation
satisfies `R * R.inverse() = identity`, the product `T * T.inverse()` is
`Identity()`: the identity rotation with scale exactly `1`. -/
theorem mul_inverse_eq_Identity {G : Type} [Inhabited G] (ops : SO3Ops ℝ G) (T : SOT3 ℝ G)
    (hpos : 0 < T.a)
    (hinv : ops.mul T.R (ops.inverse T.R) = ops.identity) :
    SOT3.mul ops T (SOT3.inverse ops T) = SOT3.Identity ops ∧
      (SOT3.mul ops T (SOT3.inverse ops T)).R = ops.identity ∧
      (SOT3.mul ops T (SOT3.inverse ops T)).a = 1 := by
  have ha : T.a * (1 / T.a) = 1 := mul_one_div_cancel (ne_of_gt hpos)
  refine ⟨?_, hinv, ha⟩
  ext
  · exact hinv
  · exact ha

theorem mul_inverse_eq_Identity_witness :
    (0 : ℝ) < (quarterTurnTwice : SOT3 ℝ (Matrix3S ℝ)).a ∧
      SOT3.mul (matrixSO3 : SO3Ops ℝ (Matrix3S ℝ)) quarterTurnTwice
        (SOT3.inverse matrixSO3 quarterTurnTwice) = SOT3.Identity matrixSO3 :=
  ⟨two_pos,
    (mul_inverse_eq_Identity matrixSO3 quarterTurnTwice two_pos quarterTurnZ_mul_transpose).1⟩

/-- C3 (inverse is an involution): over the reals, for `T` of positive scale
whose rotation satisfies `R.inverse().inverse() = R`, the element
`T.inverse().inverse()` is `T`. -/
theorem inverse_inverse {G : Type} (ops : SO3Ops ℝ G) (T : SOT3 ℝ G)
    (hpos : 0 < T.a)
    (hinv : ops.inverse (ops.inverse T.R) = T.R) :
    SOT3.inverse ops (SOT3.inverse ops T) = T := by
  have ha : T.a ≠ 0 := ne_of_gt hpos
  ext
  · exact hinv
  · show 1 / (1 / T.a) = T.a
    field_simp

theorem inverse_inverse_witness :
    (0 : ℝ) < (quarterTurnTwice : SOT3 ℝ (Matrix3S ℝ)).a ∧
      SOT3.inverse (matrixSO3 : SO3Ops ℝ (Matrix3S ℝ))
        (SOT3.inverse matrixSO3 quarterTurnTwice) = quarterTurnTwice :=
  ⟨two_pos,
    inverse_inverse matrixSO3 quarterTurnTwice two_pos
      (Matrix.transpose_transpose (quarterTurnZ : Matrix3S ℝ))⟩

/-! ## Exponential and logarithm -/

/-- C4 (exp after log): over the reals, for `T` of positive scale whose rotation
satisfies `SO3::exp(SO3::log(R)) = R`, the element `exp(log(T))` is `T`. -/
theorem exp_log {G : Type} [Inhabited G] (ops : SO3Ops ℝ G) (T : SOT3 ℝ G)
    (hpos : 0 < T.a)
    (hR : ops.exp (ops.log T.R) = T.R) :
    SOT3.exp ops Real.exp (SOT3.log ops Real.log T) = T := by
  ext
  · show ops.exp (block31 (setCoeff4 (setBlock31 0 (ops.log T.R)) 3 (Real.log T.a))) = T.R
    rw [block31_eq_segment3, setBlock31_eq_setSegment3, segment3_setCoeff4_setSegment3, hR]
  · show Real.exp (setCoeff4 (setBlock31 0 (ops.log T.R)) 3 (Real.log T.a) 3) = T.a
    rw [setCoeff4_self, Real.exp_log hpos]

theorem exp_log_witness :
    (0 : ℝ) < (pureScaleTwo : SOT3 ℝ (Matrix3S ℝ)).a ∧
      SOT3.exp (matrixSO3 : SO3Ops ℝ (Matrix3S ℝ)) Real.exp
        (SOT3.log matrixSO3 Real.log pureScaleTwo) = pureScaleTwo :=
  ⟨two_pos,
    exp_log matrixSO3 pureScaleTwo two_pos
      (show (1 : Matrix3S ℝ) + skewMatrix (vexMatrix (1 : Matrix3S ℝ)) = 1 by
        rw [skewMatrix_vexMatrix_one, add_zero])⟩

/-- C5 (log after exp): over the reals, for every 4-vector `v` whose angular part
satisfies `SO3::log(SO3::exp(w)) = w`, the vector `log(exp(v))` is `v`; the
fourth entry is recovered for every `v`; and when `SO3::log(SO3::exp(0)) = 0`,
`log(exp((0,0,0,1)))` is `(0,0,0,1)`. -/
theorem log_exp {G : Type} [Inhabited G] (ops : SO3Ops ℝ G) :
    (∀ v : VectorAlgS ℝ, ops.log (ops.exp (segment3 v)) = segment3 v →
        SOT3.log ops Real.log (SOT3.exp ops Real.exp v) = v) ∧
      (∀ v : VectorAlgS ℝ, SOT3.log ops Real.log (SOT3.exp ops Real.exp v) 3 = v 3) ∧
      (ops.log (ops.exp 0) = 0 →
        SOT3.log ops Real.log (SOT3.exp ops Real.exp ![0, 0, 0, 1]) = ![0, 0, 0, 1]) := by
  have key : ∀ v : VectorAlgS ℝ, ops.log (ops.exp (segment3 v)) = segment3 v →
      SOT3.log ops Real.log (SOT3.exp ops Real.exp v) = v := by
    intro v hw
    show setCoeff4 (setBlock31 0 (ops.log (ops.exp (block31 v)))) 3
      (Real.log (Real.exp (v 3))) = v
    rw [block31_eq_segment3, setBlock31_eq_setSegment3, hw, Real.log_exp]
    exact setCoeff4_setSegment3_segment3 0 v
  refine ⟨key, ?_, ?_⟩
  · intro v
    show setCoeff4 (setBlock31 0 (ops.log (ops.exp (block31 v)))) 3
      (Real.log (Real.exp (v 3))) 3 = v 3
    rw [setCoeff4_self, Real.log_exp]
  · intro h0
    apply key
    have hseg : segment3 (![0, 0, 0, 1] : VectorAlgS ℝ) = 0 := by
      funext i
      fin_cases i <;> rfl
    rw [hseg, h0]

theorem log_exp_witness :
    SOT3.log (matrixSO3 : SO3Ops ℝ (Matrix3S ℝ)) Real.log
        (SOT3.exp matrixSO3 Real.exp ![1, 2, 3, 4]) = ![1, 2, 3, 4] ∧
      SOT3.log (matrixSO3 : SO3Ops ℝ (Matrix3S ℝ)) Real.log
        (SOT3.exp matrixSO3 Real.exp ![0, 0, 0, 1]) = ![0, 0, 0, 1] :=
  ⟨(log_exp (matrixSO3 : SO3Ops ℝ (Matrix3S ℝ))).1 ![1, 2, 3, 4]
      (vexMatrix_one_add_skewMatrix _),
    (log_exp (matrixSO3 : SO3Ops ℝ (Matrix3S ℝ))).2.2
      (vexMatrix_one_add_skewMatrix (0 : Vector3S ℝ))⟩

/-- C7 (scale positivity under exp): over the reals, for every 4-vector `v` the
scale of `exp(v)` is `exp(v[3])`, which is strictly positive. -/
theorem exp_scale_pos {G : Type} [Inhabited G] (ops : SO3Ops ℝ G) (v : VectorAlgS ℝ) :
    (SOT3.exp ops Real.exp v).a = Real.exp (v 3) ∧ 0 < (SOT3.exp ops Real.exp v).a :=
  ⟨rfl, Real.exp_pos (v 3)⟩

/-- Counterexample to C7 in `double`: at the algebra vector `(0, 0, 0, -1000)`
the exponential underflows, so the scale of `exp(v)` is `+0` and `0 < scale`
is false. -/
theorem exp_scale_binary64 :
    (SOT3.exp (coeffSO3 : SO3Ops F64 (Matrix3S F64)) (F64.exp Real.exp) deepLogScale).a
        = F64.finite false 0 ∧
      ¬ (0 : F64) <
        (SOT3.exp (coeffSO3 : SO3Ops F64 (Matrix3S F64)) (F64.exp Real.exp) deepLogScale).a := by
  have ha : (SOT3.exp (coeffSO3 : SO3Ops F64 (Matrix3S F64)) (F64.exp Real.exp)
      deepLogScale).a = F64.finite false 0 := F64.exp_neg_thousand
  refine ⟨ha, ?_⟩
  rw [ha]
  decide

/-- Counterexample to C5 in `double`: at `v = (0, 0, 0, -1000)` the angular part
satisfies `SO3::log(SO3::exp(w)) = w`, the scale of `exp(v)` underflows to `+0`,
and its logarithm is `-inf`, so the fourth entry of `log(exp(v))` is not
`-1000` and `log(exp(v))` is not `v`. -/
theorem log_exp_binary64 :
    (coeffSO3 : SO3Ops F64 (Matrix3S F64)).log
        ((coeffSO3 : SO3Ops F64 (Matrix3S F64)).exp (segment3 deepLogScale))
        = segment3 deepLogScale ∧
      SOT3.log (coeffSO3 : SO3Ops F64 (Matrix3S F64)) (F64.log Real.log)
        (SOT3.exp coeffSO3 (F64.exp Real.exp) deepLogScale) 3 = F64.inf true ∧
      deepLogScale 3 = F64.finite true 1000 ∧
      SOT3.log (coeffSO3 : SO3Ops F64 (Matrix3S F64)) (F64.log Real.log)
        (SOT3.exp coeffSO3 (F64.exp Real.exp) deepLogScale) ≠ deepLogScale := by
  have h3 : SOT3.log (coeffSO3 : SO3Ops F64 (Matrix3S F64)) (F64.log Real.log)
      (SOT3.exp coeffSO3 (F64.exp Real.exp) deepLogScale) 3 = F64.inf true := by
    show F64.log Real.log (F64.exp Real.exp (F64.finite true 1000)) = F64.inf true
    rw [F64.exp_neg_thousand]
    simp [F64.log]
  refine ⟨?_, h3, rfl, fun h => ?_⟩
  · funext i
    fin_cases i <;> decide!
  · have h3v := congrFun h 3
    rw [h3] at h3v
    exact absurd h3v (by decide)

/-! ## Wedge and vee -/

/-- C6 (vee after wedge): for every scalar type and every 4-vector `v` whose
angular part satisfies `SO3::vex(SO3::skew(w)) = w`, the vector `vee(wedge(v))`
is `v` in all four entries. -/
theorem vee_wedge {S G : Type} [Zero S] (ops : SO3Ops S G) (v : VectorAlgS S)
    (hvex : ops.vex (ops.skew (segment3 v)) = segment3 v) :
    SOT3.vee ops (SOT3.wedge ops v) = v := by
  show setCoeff4 (setSegment3 0 (ops.vex (block33
      (setCoeff44 (setBlock33 0 (ops.skew (segment3 v))) 3 3 (v 3))))) 3
      (setCoeff44 (setBlock33 0 (ops.skew (segment3 v))) 3 3 (v 3) 3 3) = v
  rw [block33_setCoeff44_setBlock33, setCoeff44_self, hvex]
  exact setCoeff4_setSegment3_segment3 0 v

theorem vee_wedge_witness :
    SOT3.vee (matrixSO3 : SO3Ops ℝ (Matrix3S ℝ)) (SOT3.wedge matrixSO3 ![1, 2, 3, 4])
      = ![1, 2, 3, 4] :=
  vee_wedge matrixSO3 ![1, 2, 3, 4] (vexMatrix_skewMatrix _)

/-! ## Point action and matrix forms -/

/-- C8 (point-action consistency): over the reals, for `T` of positive scale
whose rotation acts homogeneously on points and whose `applyInverse` undoes
that action, `T.applyInverse(T * p)` is `p` for every point `p`. -/
theorem applyInverse_act {G : Type} (ops : SO3Ops ℝ G) (T : SOT3 ℝ G) (p : Vector3S ℝ)
    (hpos : 0 < T.a)
    (hlin : ∀ (c : ℝ) (q : Vector3S ℝ), ops.act T.R (c • q) = c • ops.act T.R q)
    (hundo : ∀ q : Vector3S ℝ, ops.applyInverse T.R (ops.act T.R q) = q) :
    SOT3.applyInverse ops T (SOT3.act ops T p) = p := by
  show (1 / T.a) • ops.applyInverse T.R (T.a • ops.act T.R p) = p
  rw [← hlin, hundo, smul_smul, one_div_mul_cancel (ne_of_gt hpos), one_smul]

theorem applyInverse_act_witness :
    (0 : ℝ) < (quarterTurnTwice : SOT3 ℝ (Matrix3S ℝ)).a ∧
      SOT3.applyInverse (matrixSO3 : SO3Ops ℝ (Matrix3S ℝ)) quarterTurnTwice
        (SOT3.act matrixSO3 quarterTurnTwice ![1, 2, 3]) = ![1, 2, 3] :=
  ⟨two_pos,
    applyInverse_act matrixSO3 quarterTurnTwice ![1, 2, 3] two_pos
      (fun c q => Matrix.mulVec_smul (quarterTurnZ : Matrix3S ℝ) c q)
      (fun q => by
        show (quarterTurnZ : Matrix3S ℝ).transpose.mulVec (quarterTurnZ.mulVec q) = q
        rw [Matrix.mulVec_mulVec, quarterTurnZ_transpose_mul, Matrix.one_mulVec])⟩

/-- C10 (the product is component-wise): over the reals, `A * B` has rotation
`A.R * B.R`, in that order, and scale `A.a * B.a`; and when the identity
rotation composed with itself is the identity rotation, the product of the
elements with identity rotation and scales 2 and 3 has identity rotation and
scale 6. -/
theorem mul_componentwise {G : Type} (ops : SO3Ops ℝ G) :
    (∀ A B : SOT3 ℝ G, (SOT3.mul ops A B).R = ops.mul A.R B.R ∧
        (SOT3.mul ops A B).a = A.a * B.a) ∧
      (ops.mul ops.identity ops.identity = ops.identity →
        SOT3.mul ops (SOT3.construct ops.identity 2) (SOT3.construct ops.identity 3)
          = SOT3.construct ops.identity 6) := by
  refine ⟨fun A B => ⟨rfl, rfl⟩, fun hid => ?_⟩
  ext
  · exact hid
  · show (2 : ℝ) * 3 = 6
    norm_num

theorem mul_componentwise_witness :
    SOT3.mul (matrixSO3 : SO3Ops ℝ (Matrix3S ℝ)) (SOT3.construct 1 2) (SOT3.construct 1 3)
      = SOT3.construct 1 6 :=
  (mul_componentwise (matrixSO3 : SO3Ops ℝ (Matrix3S ℝ))).2 (one_mul (1 : Matrix3S ℝ))

/-- C11 (pure-scale action): over the reals, when the identity rotation fixes the
point `p`, the element built from the identity rotation and the scale `a` maps
`p` to `a * p`; in particular, when the identity rotation fixes `(1,0,0)`, the
element built from the identity rotation and the scale 2 maps `(1,0,0)` to
`(2,0,0)`. -/
theorem pure_scale_act {G : Type} (ops : SO3Ops ℝ G) :
    (∀ (a : ℝ) (p : Vector3S ℝ), ops.act ops.identity p = p →
        SOT3.act ops (SOT3.construct ops.identity a) p = a • p) ∧
      (ops.act ops.identity ![1, 0, 0] = ![1, 0, 0] →
        SOT3.act ops (SOT3.construct ops.identity 2) ![1, 0, 0] = ![2, 0, 0]) := by
  have key : ∀ (a : ℝ) (p : Vector3S ℝ), ops.act ops.identity p = p →
      SOT3.act ops (SOT3.construct ops.identity a) p = a • p := by
    intro a p hp
    show a • ops.act ops.identity p = a • p
    rw [hp]
  refine ⟨key, fun h => ?_⟩
  rw [key 2 ![1, 0, 0] h]
  funext i
  fin_cases i <;> simp

theorem pure_scale_act_witness :
    SOT3.act (matrixSO3 : SO3Ops ℝ (Matrix3S ℝ)) (SOT3.construct 1 5) ![1, 2, 3]
        = (5 : ℝ) • ![1, 2, 3] ∧
      SOT3.act (matrixSO3 : SO3Ops ℝ (Matrix3S ℝ)) (SOT3.construct 1 2) ![1, 0, 0]
        = ![2, 0, 0] :=
  ⟨(pure_scale_act (matrixSO3 : SO3Ops ℝ (Matrix3S ℝ))).1 5 ![1, 2, 3]
      (show (1 : Matrix3S ℝ).mulVec ![1, 2, 3] = ![1, 2, 3] from Matrix.one_mulVec _),
    (pure_scale_act (matrixSO3 : SO3Ops ℝ (Matrix3S ℝ))).2
      (show (1 : Matrix3S ℝ).mulVec ![1, 0, 0] = ![1, 0, 0] from Matrix.one_mulVec _)⟩

/-- C12 (applyInverse agrees with the full inverse): over the reals, for `T` of
positive scale and a point `p` at which the rotation satisfies
`R.applyInverse(p) = R.inverse() * p`, `T.applyInverse(p)` equals
`T.inverse() * p`. -/
theorem applyInverse_eq_inverse_act {G : Type} (ops : SO3Ops ℝ G) (T : SOT3 ℝ G)
    (p : Vector3S ℝ)
    (hpos : 0 < T.a)
    (hrot : ops.applyInverse T.R p = ops.act (ops.inverse T.R) p) :
    SOT3.applyInverse ops T p = SOT3.act ops (SOT3.inverse ops T) p ∧
      0 < (SOT3.inverse ops T).a := by
  constructor
  · show (1 / T.a) • ops.applyInverse T.R p = (1 / T.a) • ops.act (ops.inverse T.R) p
    rw [hrot]
  · exact one_div_pos.mpr hpos

theorem applyInverse_eq_inverse_act_witness :
    (0 : ℝ) < (quarterTurnTwice : SOT3 ℝ (Matrix3S ℝ)).a ∧
      SOT3.applyInverse (matrixSO3 : SO3Ops ℝ (Matrix3S ℝ)) quarterTurnTwice ![1, 2, 3]
        = SOT3.act matrixSO3 (SOT3.inverse matrixSO3 quarterTurnTwice) ![1, 2, 3] :=
  ⟨two_pos,
    (applyInverse_eq_inverse_act matrixSO3 quarterTurnTwice ![1, 2, 3] two_pos rfl).1⟩

/-- C13 (layout of asMatrix): for every scalar type and every element `T`, the
top-left 3x3 block of `T.asMatrix()` is the rotation matrix of `T.R`, the entry
(3,3) is the scale `T.a`, and the six other entries of the last row and the last
column are zero. -/
theorem asMatrix_layout {S G : Type} [Field S] (ops : SO3Ops S G) (T : SOT3 S G) :
    block33 (SOT3.asMatrix ops T) = ops.asMatrix T.R ∧
      SOT3.asMatrix ops T 3 3 = T.a ∧
      (SOT3.asMatrix ops T 3 0 = 0 ∧ SOT3.asMatrix ops T 3 1 = 0 ∧
        SOT3.asMatrix ops T 3 2 = 0) ∧
      (SOT3.asMatrix ops T 0 3 = 0 ∧ SOT3.asMatrix ops T 1 3 = 0 ∧
        SOT3.asMatrix ops T 2 3 = 0) := by
  refine ⟨block33_setCoeff44_setBlock33 1 (ops.asMatrix T.R) T.a,
    setCoeff44_self _ 3 3 T.a, ⟨?_, ?_, ?_⟩, ⟨?_, ?_, ?_⟩⟩ <;>
  rfl

/-- C14 (in-place and functional inversion agree): for every scalar type and
every element `T` whose rotation is left by `R.invert()` equal to the value of
`R.inverse()`, the state of `T` after `T.invert()` is the value of
`T.inverse()`: rotation inverted and scale `1 / a`. -/
theorem invert_eq_inverse {S G : Type} [Field S] (ops : SO3Ops S G) (T : SOT3 S G)
    (hrot : ops.invert T.R = ops.inverse T.R) :
    SOT3.invert ops T = SOT3.inverse ops T ∧
      (SOT3.invert ops T).R = ops.inverse T.R ∧
      (SOT3.invert ops T).a = 1 / T.a ∧
      (SOT3.inverse ops T).R = ops.inverse T.R ∧
      (SOT3.inverse ops T).a = 1 / T.a := by
  refine ⟨?_, hrot, rfl, rfl, rfl⟩
  ext
  · exact hrot
  · rfl

theorem invert_eq_inverse_witness :
    SOT3.invert (matrixSO3 : SO3Ops ℝ (Matrix3S ℝ)) quarterTurnTwice
      = SOT3.inverse matrixSO3 quarterTurnTwice :=
  (invert_eq_inverse (matrixSO3 : SO3Ops ℝ (Matrix3S ℝ)) quarterTurnTwice rfl).1

/-! ## The positive-scale invariant -/

/-- C15 (positive scale is preserved): over the reals, `Identity()` and every
`exp(v)` have positive scale; the product, `inverse()`, `invert()` and
`setIdentity()` yield positive scale from positive scale; hence every element
reachable by these operations from elements of positive scale has positive
scale. -/
theorem scale_pos_invariant {G : Type} [Inhabited G] (ops : SO3Ops ℝ G) :
    0 < (SOT3.Identity ops).a ∧
      (∀ v : VectorAlgS ℝ, 0 < (SOT3.exp ops Real.exp v).a) ∧
      (∀ A B : SOT3 ℝ G, 0 < A.a → 0 < B.a → 0 < (SOT3.mul ops A B).a) ∧
      (∀ A : SOT3 ℝ G, 0 < A.a → 0 < (SOT3.inverse ops A).a) ∧
      (∀ A : SOT3 ℝ G, 0 < A.a → 0 < (SOT3.invert ops A).a) ∧
      (∀ A : SOT3 ℝ G, 0 < A.a → 0 < (SOT3.setIdentity ops A).a) ∧
      (∀ T : SOT3 ℝ G, Reachable ops T → 0 < T.a) := by
  have hId : 0 < (SOT3.Identity ops).a := by
    show (0 : ℝ) < 1
    exact one_pos
  have hexp : ∀ v : VectorAlgS ℝ, 0 < (SOT3.exp ops Real.exp v).a :=
    fun v => Real.exp_pos (v 3)
  have hmul : ∀ A B : SOT3 ℝ G, 0 < A.a → 0 < B.a → 0 < (SOT3.mul ops A B).a :=
    fun A B hA hB => mul_pos hA hB
  have hinv : ∀ A : SOT3 ℝ G, 0 < A.a → 0 < (SOT3.inverse ops A).a :=
    fun A hA => one_div_pos.mpr hA
  have hinvert : ∀ A : SOT3 ℝ G, 0 < A.a → 0 < (SOT3.invert ops A).a :=
    fun A hA => one_div_pos.mpr hA
  have hset : ∀ A : SOT3 ℝ G, 0 < (SOT3.setIdentity ops A).a := by
    intro A
    show (0 : ℝ) < 1
    exact one_pos
  refine ⟨hId, hexp, hmul, hinv, hinvert, fun A _ => hset A, ?_⟩
  intro T hT
  induction hT with
  | start T h => exact h
  | Identity => exact hId
  | exp v => exact hexp v
  | mul A B _ _ ihA ihB => exact hmul A B ihA ihB
  | inverse A _ ih => exact hinv A ih
  | invert A _ ih => exact hinvert A ih
  | setIdentity A _ _ => exact hset A

theorem scale_pos_invariant_witness :
    (0 : ℝ) < (SOT3.mul (matrixSO3 : SO3Ops ℝ (Matrix3S ℝ)) quarterTurnTwice
      (SOT3.invert matrixSO3 (SOT3.exp matrixSO3 Real.exp ![0, 0, 1, -3]))).a :=
  (scale_pos_invariant (matrixSO3 : SO3Ops ℝ (Matrix3S ℝ))).2.2.2.2.2.2 _
    (Reachable.mul _ _ (Reachable.start _ two_pos)
      (Reachable.invert _ (Reachable.exp _)))

/-- Counterexample to C15 in `double`: the element with the identity rotation
and scale `2 ^ -600` has positive scale, and its product with itself has scale
`+0`, because `2 ^ -1200` is below half the least positive double. -/
theorem scale_pos_binary64 :
    (0 : F64) < tinyScale.a ∧
      (SOT3.mul coeffSO3 tinyScale tinyScale).a = F64.finite false 0 ∧
      ¬ (0 : F64) < (SOT3.mul coeffSO3 tinyScale tinyScale).a := by
  refine ⟨by decide!, by decide!, by decide!⟩

/-! ## Commutativity, sampling, action and matrix homomorphism -/

/-- C16 (the product is not commutative, its scale part is): with rotations
stored as real 3x3 matrices composed by the matrix product, there are elements
`A` and `B` whose rotations are rotation matrices (orthogonal, determinant 1),
the quarter turns about the third and the first axis, with `A * B ≠ B * A`;
and for every rotation class and all `A`, `B` the scale of `A * B` equals the
scale of `B * A`. -/
theorem mul_not_comm_scale_comm :
    (∃ A B : SOT3 ℝ (Matrix3S ℝ),
        (A.R * A.R.transpose = 1 ∧ A.R.det = 1) ∧
        (B.R * B.R.transpose = 1 ∧ B.R.det = 1) ∧
        SOT3.mul matrixSO3 A B ≠ SOT3.mul matrixSO3 B A) ∧
      (∀ (G : Type) (ops : SO3Ops ℝ G) (A B : SOT3 ℝ G),
        (SOT3.mul ops A B).a = (SOT3.mul ops B A).a) := by
  refine ⟨⟨SOT3.construct quarterTurnZ 1, SOT3.construct quarterTurnX 1,
    ⟨quarterTurnZ_mul_transpose, ?_⟩, ⟨?_, ?_⟩, ?_⟩, fun G ops A B => mul_comm A.a B.a⟩
  · show (quarterTurnZ : Matrix3S ℝ).det = 1
    simp [quarterTurnZ, Matrix.det_fin_three]
  · show (quarterTurnX : Matrix3S ℝ) * quarterTurnX.transpose = 1
    ext i j
    fin_cases i <;> fin_cases j <;>
      simp [quarterTurnX, Matrix.mul_apply, Fin.sum_univ_three, Matrix.one_apply,
        Matrix.transpose_apply, Matrix.vecHead, Matrix.vecTail]
  · show (quarterTurnX : Matrix3S ℝ).det = 1
    simp [quarterTurnX, Matrix.det_fin_three]
  · intro h
    have hR : (quarterTurnZ : Matrix3S ℝ) * quarterTurnX = quarterTurnX * quarterTurnZ :=
      congrArg SOT3.R h
    have h01 := congrFun (congrFun hR 0) 1
    simp [quarterTurnZ, quarterTurnX, Matrix.mul_apply, Fin.sum_univ_three,
      Matrix.vecHead, Matrix.vecTail] at h01

/-- C17 (the scale exponent of Random() degenerates): for a draw `r` of `rand()`
in `0 .. RAND_MAX` with `RAND_MAX` positive, the integer quotient
`rand() / RAND_MAX` written in `Random()` is 0 when `r < RAND_MAX` and is 1
exactly when `r = RAND_MAX`. -/
theorem randQuotient_degenerate (r RAND_MAX : ℕ) (hmax : 0 < RAND_MAX) (hr : r ≤ RAND_MAX) :
    (r < RAND_MAX → SOT3.randQuotient r RAND_MAX = 0) ∧
      (r = RAND_MAX → SOT3.randQuotient r RAND_MAX = 1) ∧
      (SOT3.randQuotient r RAND_MAX = 1 ↔ r = RAND_MAX) := by
  have hlt : r < RAND_MAX → SOT3.randQuotient r RAND_MAX = 0 :=
    fun h => Nat.div_eq_of_lt h
  have heq : r = RAND_MAX → SOT3.randQuotient r RAND_MAX = 1 := by
    intro h
    subst h
    exact Nat.div_self hmax
  refine ⟨hlt, heq, fun h => ?_, heq⟩
  rcases Nat.lt_or_ge r RAND_MAX with hlt2 | hge
  · rw [hlt hlt2] at h
    exact absurd h (by decide)
  · exact le_antisymm hr hge

theorem randQuotient_degenerate_witness :
    SOT3.randQuotient 1804289383 2147483647 = 0 ∧
      SOT3.randQuotient 2147483647 2147483647 = 1 :=
  ⟨(randQuotient_degenerate 1804289383 2147483647 (by decide) (by decide)).1 (by decide),
    (randQuotient_degenerate 2147483647 2147483647 (by decide) (by decide)).2.1 rfl⟩

/-- C18 (the point action is a group action): over the reals, when the rotation
of `A` acts homogeneously on points and the action of the composed rotation
`A.R * B.R` is the action of `B.R` followed by that of `A.R`, then
`(A * B) * p = A * (B * p)` for every point `p`. -/
theorem mul_act {G : Type} (ops : SO3Ops ℝ G) (A B : SOT3 ℝ G) (p : Vector3S ℝ)
    (hlin : ∀ (c : ℝ) (q : Vector3S ℝ), ops.act A.R (c • q) = c • ops.act A.R q)
    (hcomp : ∀ q : Vector3S ℝ, ops.act (ops.mul A.R B.R) q = ops.act A.R (ops.act B.R q)) :
    SOT3.act ops (SOT3.mul ops A B) p = SOT3.act ops A (SOT3.act ops B p) := by
  show (A.a * B.a) • ops.act (ops.mul A.R B.R) p = A.a • ops.act A.R (B.a • ops.act B.R p)
  rw [hcomp, hlin, smul_smul]

theorem mul_act_witness :
    SOT3.act (matrixSO3 : SO3Ops ℝ (Matrix3S ℝ))
        (SOT3.mul matrixSO3 quarterTurnTwice (SOT3.construct quarterTurnX 3)) ![1, 2, 3]
      = SOT3.act matrixSO3 quarterTurnTwice
        (SOT3.act matrixSO3 (SOT3.construct quarterTurnX 3) ![1, 2, 3]) :=
  mul_act matrixSO3 quarterTurnTwice (SOT3.construct quarterTurnX 3) ![1, 2, 3]
    (fun c q => Matrix.mulVec_smul (quarterTurnZ : Matrix3S ℝ) c q)
    (fun q => (Matrix.mulVec_mulVec q (quarterTurnZ : Matrix3S ℝ) quarterTurnX).symm)

/-- C20 (matrix round trip): for every scalar type and every element `T` whose
rotation satisfies `fromMatrix(R.asMatrix()) = R`, the element built from
`T.asMatrix()` by the 4x4-matrix constructor is `T`: the scale is read back from
the entry (3,3) and the rotation from the top-left 3x3 block. -/
theorem ofMatrix_asMatrix {S G : Type} [Field S] (ops : SO3Ops S G) (T : SOT3 S G)
    (hrot : ops.fromMatrix (ops.asMatrix T.R) = T.R) :
    SOT3.ofMatrix ops (SOT3.asMatrix ops T) = T ∧
      (SOT3.ofMatrix ops (SOT3.asMatrix ops T)).a = SOT3.asMatrix ops T 3 3 ∧
      (SOT3.ofMatrix ops (SOT3.asMatrix ops T)).R
        = ops.fromMatrix (block33 (SOT3.asMatrix ops T)) := by
  refine ⟨?_, rfl, rfl⟩
  ext
  · show ops.fromMatrix (block33 (setCoeff44 (setBlock33 1 (ops.asMatrix T.R)) 3 3 T.a)) = T.R
    rw [block33_setCoeff44_setBlock33, hrot]
  · exact setCoeff44_self _ 3 3 T.a

theorem ofMatrix_asMatrix_witness :
    SOT3.ofMatrix (matrixSO3 : SO3Ops ℝ (Matrix3S ℝ))
      (SOT3.asMatrix matrixSO3 quarterTurnTwice) = quarterTurnTwice :=
  (ofMatrix_asMatrix (matrixSO3 : SO3Ops ℝ (Matrix3S ℝ)) quarterTurnTwice rfl).1

end LiePP
